import Mathlib

/-!
Shallow embedding of the hidl-gen driver (`main.cpp`) and of its text
emitter (`utils/Formatter.cpp`).

Modelling conventions:
* C++ `std::string` is modelled as `List Char` (`Text`); `std::vector` as a
  `List`; `std::set` as a list together with the membership test performed
  at insertion time (so insertion of an already present element is a no-op,
  exactly as `std::set::insert`).
* The `FILE *` sink of a `Formatter` is modelled as an explicit character
  list carried in the state; `fprintf` appends to it.
* `status_t` is modelled as `Nat`, with `OK = 0` and `UNKNOWN_ERROR`
  standing for any non-zero error value.
* A failed `CHECK`/`assert` (which aborts the process) and C++ undefined
  behaviour (out-of-bounds indexing) are modelled as an `Option.none`
  result.
* External collaborators (the parser, the `Coordinator`'s package table,
  the per-language `AST::generate*` bodies and the filesystem) are modelled
  by an environment `Env` of finite tables and result oracles.
-/

namespace Hidl

abbrev Text := List Char

/-- `status_t` success value (`OK = 0`). -/
def OK : Nat := 0

/-- `UNKNOWN_ERROR`; any fixed non-zero status value. -/
def UNKNOWN_ERROR : Nat := 1

/-- Modelled from the spec: `FQName` is the immutable identifier
`{package, version, name}` (the version groups major and minor); the name
may be empty (bare package) or denote an interface / the "types" unit.
The `FQName` implementation itself lives outside this repository
(hidl-util). -/
structure FQName where
  package : String
  version : String
  name : String
deriving DecidableEq

/-- Modelled from the spec: an `FQName` is fully qualified when it carries
a unit name in addition to a package and a version. -/
def FQName.isFullyQualified (f : FQName) : Bool :=
  f.package ≠ "" && f.version ≠ "" && f.name ≠ ""

/-- Modelled from the spec: a structurally valid `FQName` names at least a
package. -/
def FQName.isValid (f : FQName) : Bool :=
  f.package ≠ ""

/-- `FQName::getTypesForPackage()`: same package and version, unit name
`"types"`. -/
def FQName.getTypesForPackage (f : FQName) : FQName :=
  { f with name := "types" }

/-- One entry of `Scope::getSubTypes()`: a named type declaration, of which
the driver only inspects `isTypeDef()`. -/
structure NamedType where
  isTypeDef : Bool
deriving DecidableEq

/-- The queries `main.cpp` makes of a parsed unit (the `AST` produced by
the external parser): the Java-compatibility flag, the set of imported
packages, the sub-type declarations of the root scope, and the number of
`@export`ed types the unit appends in
`appendToExportedTypesVector`. -/
structure AST where
  isJavaCompatible : Bool
  importedPackages : List FQName
  subTypes : List NamedType
  exportedTypesCount : Nat
deriving DecidableEq

/-- The environment of external collaborators: the `Coordinator`'s package
table (`appendPackageInterfacesToVector`), its parse results
(`Coordinator::parse`, memoized, so one fixed result per name), the
status returned by the per-language `AST::generate*` body for a unit, and
whether opening the output sink for a package succeeds
(`Coordinator::getFormatter` validity). -/
structure Env where
  packages : List (FQName × List FQName)
  asts : List (FQName × AST)
  genStatus : FQName → String → Nat
  openOk : FQName → Bool

/-- `Coordinator::appendPackageInterfacesToVector`: the ordered member
units of a package, `none` when the coordinator reports an error. -/
def Env.members? (env : Env) (p : FQName) : Option (List FQName) :=
  (env.packages.find? (fun e => e.1 == p)).map (fun e => e.2)

/-- `Coordinator::parse`: the parsed unit for a name, `none` on parse
failure. -/
def Env.parse (env : Env) (u : FQName) : Option AST :=
  (env.asts.find? (fun e => e.1 == u)).map (fun e => e.2)

/-- All units listed by any package of the environment; the finite
universe the import traversal can ever see. -/
def universeOf (env : Env) : List FQName :=
  (env.packages.map Prod.snd).flatten

/- ===================================================================
   utils/Formatter.cpp
   =================================================================== -/

/-- The state of `Formatter`: the output sink (characters written so far),
whether the `FILE *` is the process's standard output (the constructor
substitutes `stdout` for a `NULL` file), the indent depth, the
at-start-of-line flag, the line prefix and the namespace-elision token
(`mSpace`). -/
structure Formatter where
  usesStdout : Bool
  sink : Text
  mIndentDepth : Nat
  mAtStartOfLine : Bool
  mLinePfx : Text
  mSpace : Text
deriving DecidableEq

/-- `Formatter::Formatter(FILE *file)`: `mFile(file == NULL ? stdout :
file)`, depth 0, at start of line. `none` models a `NULL` `FILE *`, i.e. a
destination whose `fopen` failed. -/
def Formatter.construct (file : Option Unit) : Formatter :=
  { usesStdout := file.isNone
    sink := []
    mIndentDepth := 0
    mAtStartOfLine := true
    mLinePfx := []
    mSpace := [] }

/-- `Formatter::indent(size_t level)`. -/
def Formatter.indent (f : Formatter) (level : Nat) : Formatter :=
  { f with mIndentDepth := f.mIndentDepth + level }

/-- `Formatter::unindent(size_t level)`: `assert(mIndentDepth >= level)`
then subtract; the failed assertion (process abort) is `none`. -/
def Formatter.unindent (f : Formatter) (level : Nat) : Option Formatter :=
  if level ≤ f.mIndentDepth then
    some { f with mIndentDepth := f.mIndentDepth - level }
  else
    none

/-- `Formatter::setNamespace`. -/
def Formatter.setNamespace (f : Formatter) (space : Text) : Formatter :=
  { f with mSpace := space }

/-- The removal loop of `Formatter::output`: delete the leftmost
occurrence of `pat`, continue scanning right after it (non-overlapping,
left to right), as the successive `text.find(mSpace, startPos)` calls
do. -/
def removeAll (pat : Text) : Text → Text
  | [] => []
  | c :: rest =>
    if h : pat ≠ [] ∧ pat.isPrefixOf (c :: rest) then
      removeAll pat (List.drop pat.length (c :: rest))
    else
      c :: removeAll pat rest
termination_by t => t.length
decreasing_by
  · have hp : 0 < pat.length := List.length_pos.mpr h.1
    simp [List.length_drop]
    omega
  · simp

/-- `Formatter::output(text)`: when `mSpace` is non-empty, remove all of
its occurrences from `text` before printing; otherwise print `text`
verbatim. -/
def Formatter.output (f : Formatter) (text : Text) : Formatter :=
  { f with sink := f.sink ++ (if f.mSpace = [] then text else removeAll f.mSpace text) }

/-- The `"%*s"` indentation: `4 * mIndentDepth` spaces. -/
def indentSpaces (depth : Nat) : Text :=
  List.replicate (4 * depth) ' '

/-- `Formatter::operator<<(const std::string &)`.  The C++ loop searches
for the next `"\n"`; `takeWhile`/`dropWhile` on the not-a-newline
predicate computes the same split.  An empty line emits a bare `"\n"`; a
non-empty line first lazily emits `mLinePrefix` and the indentation when
at the start of a line, then sends the line (with its newline, if any)
through `output`. -/
def Formatter.writeStr (f : Formatter) (out : Text) : Formatter :=
  match hm : out.dropWhile (fun c => c != '\n') with
  | [] =>
    if out = [] then f
    else
      let g := if f.mAtStartOfLine then
          { f with sink := f.sink ++ f.mLinePfx ++ indentSpaces f.mIndentDepth,
                   mAtStartOfLine := false }
        else f
      g.output out
  | _ :: rest =>
    if out.takeWhile (fun c => c != '\n') = [] then
      Formatter.writeStr { f with sink := f.sink ++ ['\n'], mAtStartOfLine := true } rest
    else
      let g := if f.mAtStartOfLine then
          { f with sink := f.sink ++ f.mLinePfx ++ indentSpaces f.mIndentDepth }
        else f
      let g2 := g.output (out.takeWhile (fun c => c != '\n') ++ ['\n'])
      Formatter.writeStr { g2 with mAtStartOfLine := true } rest
termination_by out.length
decreasing_by
  all_goals
    have hle : ∀ (l : Text), (l.dropWhile (fun c => c != '\n')).length ≤ l.length := by
      intro l
      induction l with
      | nil => simp [List.dropWhile]
      | cons c cs ih =>
        by_cases hc : (c != '\n') = true
        · simp [List.dropWhile, hc]
          omega
        · simp [List.dropWhile, hc]
  all_goals
    have hx := hle out
  all_goals
    rw [hm] at hx
  all_goals
    simp at hx
  all_goals
    omega

/- Specification-side description of a write, used to state what
`operator<<` does to the sink (claim C5): the text is cut into
newline-separated lines, each non-empty line is prefixed with
`mLinePrefix` plus the indentation (the first line only when the emitter
is at the start of a line), and the lines are rejoined with newlines. -/

/-- The newline-separated lines of a text: `linesOf "a\nb" = ["a","b"]`,
`linesOf "a\n" = ["a",""]`, `linesOf "" = [""]`. -/
def linesOf : Text → List Text
  | [] => [[]]
  | c :: rest =>
    let ls := linesOf rest
    if c = '\n' then [] :: ls else (c :: ls.headD []) :: ls.tail

/-- Spec-side rendering of a list of lines: every non-empty line gets the
line prefix and the indentation (the first one only when starting at a
fresh line); lines are joined by single newlines and no trailing newline
is invented. -/
def renderLines (p : Text) (d : Nat) : Bool → List Text → Text
  | _, [] => []
  | atStart, [l] =>
    if l = [] then [] else (if atStart then p ++ indentSpaces d else []) ++ l
  | atStart, l :: l2 :: ls =>
    (if l = [] then [] else (if atStart then p ++ indentSpaces d else []) ++ l)
      ++ '\n' :: renderLines p d true (l2 :: ls)

/-- The filter `Formatter::output` applies to each text it is handed:
the identity when no elision token is set, otherwise `removeAll` of the
token. -/
def filterSp (sp text : Text) : Text :=
  if sp = [] then text else removeAll sp text

/-- Spec-side rendering of a list of lines under an elision token: a
blank line emits a bare newline directly, bypassing the filter; every
other line is handed to the filter *together with its trailing newline*
(the final line without one), after the lazily emitted line prefix and
indentation. -/
def renderLinesSp (sp pfxText : Text) (d : Nat) : Bool → List Text → Text
  | _, [] => []
  | atStart, [l] =>
    if l = [] then []
    else (if atStart then pfxText ++ indentSpaces d else []) ++ filterSp sp l
  | atStart, l :: l2 :: ls =>
    (if l = [] then ['\n']
     else (if atStart then pfxText ++ indentSpaces d else []) ++ filterSp sp (l ++ ['\n']))
      ++ renderLinesSp sp pfxText d true (l2 :: ls)

/-- Spec-side at-start-of-line flag after writing `t`: unchanged by an
empty write, otherwise true exactly when the text ends in a newline. -/
def atStartAfter (b : Bool) (t : Text) : Bool :=
  match t with
  | [] => b
  | _ :: _ => decide (t.getLast? = some '\n')

/- ===================================================================
   main.cpp : isPackageJavaCompatible (lines 347-406)
   =================================================================== -/

/-- `status_t` plus the `*compatible` out-parameter of
`isPackageJavaCompatible`: either an error status or `OK` together with
the computed flag. -/
inductive RunResult where
  | err : RunResult
  | ok : Bool → RunResult
deriving DecidableEq

/-- The inner loop over one imported package's interfaces: every
interface not yet in `seen` is pushed on the worklist and inserted into
`seen` (`std::set::insert` after a failed `find`). -/
def addIfaces : List FQName → List FQName → List FQName → (List FQName × List FQName)
  | [], todo, seen => (todo, seen)
  | i :: rest, todo, seen =>
    if i ∈ seen then addIfaces rest todo seen
    else addIfaces rest (todo ++ [i]) (i :: seen)

/-- The loop over `ast->getImportedPackages()`: each imported package's
member list is fetched (`none` propagates a coordinator error) and its
interfaces are merged into the worklist and the visited set. -/
def expandImports (env : Env) : List FQName → List FQName → List FQName → Option (List FQName × List FQName)
  | [], todo, seen => some (todo, seen)
  | p :: ps, todo, seen =>
    match env.members? p with
    | none => none
    | some ifaces =>
      let ts := addIfaces ifaces todo seen
      expandImports env ps ts.1 ts.2

/-- The `while (!todo.empty())` loop of `isPackageJavaCompatible`.  The
vector-as-stack (`back`/`pop_back`) is modelled with the list head as the
stack top.  `fuel` bounds the number of iterations; `none` means the
fuel ran out (shown impossible for the fuel chosen below).  Besides the
C++ result the model returns the final visited set and the list of
units popped and examined, in order (ghost observations). -/
def runCompat (env : Env) : Nat → List FQName → List FQName → List FQName → Option (RunResult × List FQName × List FQName)
  | 0, _, _, _ => none
  | fuel + 1, todo, seen, processed =>
    match todo with
    | [] => some (.ok true, seen, processed)
    | fq :: todoRest =>
      match env.parse fq with
      | none => some (.err, seen, processed ++ [fq])
      | some ast =>
        if ast.isJavaCompatible = false then
          some (.ok false, seen, processed ++ [fq])
        else
          match expandImports env ast.importedPackages todoRest seen with
          | none => some (.err, seen, processed ++ [fq])
          | some (todo2, seen2) => runCompat env fuel todo2 seen2 (processed ++ [fq])

/-- `std::set<FQName> seen; for (iface : todo) seen.insert(iface);`. -/
def insertSeen (l : List FQName) : List FQName :=
  l.foldl (fun s i => if i ∈ s then s else i :: s) []

/-- Units of the universe not yet visited; the decreasing part of the
loop measure. -/
def unseenCount (env : Env) (seen : List FQName) : Nat :=
  ((universeOf env).filter (fun u => decide (u ∉ seen))).length

/-- Fuel that strictly dominates the loop measure, so the worklist loop
always finishes within it. -/
def compatFuel (env : Env) (todo seen : List FQName) : Nat :=
  todo.length + unseenCount env seen + 1

/-- `isPackageJavaCompatible` (main.cpp 347-406), with the ghost
observations of `runCompat`. -/
def isPackageJavaCompatibleT (env : Env) (packageFQName : FQName) : Option (RunResult × List FQName × List FQName) :=
  match env.members? packageFQName with
  | none => some (.err, [], [])
  | some todo =>
    let seen := insertSeen todo
    runCompat env (compatFuel env todo seen) todo seen []

/-- `isPackageJavaCompatible`: just the status and the `*compatible`
flag. -/
def isPackageJavaCompatible (env : Env) (packageFQName : FQName) : Option RunResult :=
  (isPackageJavaCompatibleT env packageFQName).map Prod.fst

/-- A unit reachable from the seed units through transitively imported
packages: each step goes from a reachable unit to any member of any
package it imports. -/
inductive Reaches (env : Env) (roots : List FQName) : FQName → Prop
  | root {u : FQName} : u ∈ roots → Reaches env roots u
  | step {u v p : FQName} {ast : AST} {ms : List FQName} :
      Reaches env roots u → env.parse u = some ast →
      p ∈ ast.importedPackages → env.members? p = some ms → v ∈ ms →
      Reaches env roots v

/-- A unit that parses and is individually Java-compatible. -/
def unitCompatible (env : Env) (u : FQName) : Prop :=
  ∃ ast, env.parse u = some ast ∧ ast.isJavaCompatible = true

/-- A visited unit that has been fully expanded: it parses, is
compatible, and every member of every package it imports is in `seen`. -/
def Expanded (env : Env) (seen : List FQName) (x : FQName) : Prop :=
  ∃ ast, env.parse x = some ast ∧ ast.isJavaCompatible = true ∧
    ∀ p ∈ ast.importedPackages, ∃ l, env.members? p = some l ∧ ∀ v ∈ l, v ∈ seen

/- ===================================================================
   main.cpp : packageNeedsJavaCode (lines 408-432)
   =================================================================== -/

/-- `packageNeedsJavaCode(packageInterfaces, typesAST)`.  Indexing
`packageInterfaces[0]` of an empty vector is undefined behaviour and the
failed `CHECK(typesAST != nullptr)` aborts; both are `none`. -/
def packageNeedsJavaCode (packageInterfaces : List FQName) (typesAST : Option AST) : Option Bool :=
  match packageInterfaces with
  | [] => none
  | first :: rest =>
    if rest.length + 1 > 1 || first.name != "types" then some true
    else
      match typesAST with
      | none => none
      | some ast => some (ast.subTypes.any (fun t => !t.isTypeDef))

/- ===================================================================
   main.cpp : source generation fan-out (lines 62-181)
   =================================================================== -/

/-- The `-L` keys `generateSourcesForFile` dispatches on. -/
def knownLangs : List String :=
  ["check", "c++", "c++-headers", "c++-sources", "c++-impl", "c++-impl-headers",
   "c++-impl-sources", "c++-adapter", "c++-adapter-headers", "c++-adapter-sources",
   "java", "vts"]

/-- `generateSourcesForFile` (main.cpp 62-130).  The result is the status
together with the units whose per-language generation body actually ran
(and so may have written output).  `none` models a failed `CHECK`. -/
def generateSourcesForFile (env : Env) (fqName : FQName) (lang : String) : Option (Nat × List FQName) :=
  if !fqName.isFullyQualified then none
  else if "types.".isPrefixOf fqName.name then
    if lang = "java" then
      match env.parse fqName.getTypesForPackage with
      | none => some (UNKNOWN_ERROR, [])
      | some _ => some (env.genStatus fqName lang, [fqName])
    else none
  else
    match env.parse fqName with
    | none => some (UNKNOWN_ERROR, [])
    | some _ =>
      if lang = "check" then some (OK, [])
      else if lang ∈ knownLangs then some (env.genStatus fqName lang, [fqName])
      else some (UNKNOWN_ERROR, [])

/-- The member loop of `generateSourcesForPackage`: generate each member
in order, return the first failing status immediately, keep the units
generated so far. -/
def generateSourcesForPackageLoop (env : Env) (lang : String) : List FQName → List FQName → Option (Nat × List FQName)
  | [], acc => some (OK, acc)
  | f :: fs, acc =>
    match generateSourcesForFile env f lang with
    | none => none
    | some (st, gen) =>
      if st ≠ OK then some (st, acc ++ gen)
      else generateSourcesForPackageLoop env lang fs (acc ++ gen)

/-- `generateSourcesForPackage` (main.cpp 132-161). -/
def generateSourcesForPackage (env : Env) (packageFQName : FQName) (lang : String) : Option (Nat × List FQName) :=
  if !(packageFQName.isValid && !packageFQName.isFullyQualified && packageFQName.name == "") then none
  else
    match env.members? packageFQName with
    | none => some (UNKNOWN_ERROR, [])
    | some ms => generateSourcesForPackageLoop env lang ms []

/-- `generationFunctionForFileOrPackage` (main.cpp 163-181). -/
def generationFunctionForFileOrPackage (env : Env) (lang : String) (fqName : FQName) : Option (Nat × List FQName) :=
  if fqName.isFullyQualified then generateSourcesForFile env fqName lang
  else generateSourcesForPackage env fqName lang

/-- The units generated for a member list when every member is processed:
concatenation, in member order, of each member's generated units. -/
def fileGens (env : Env) (lang : String) : List FQName → List FQName
  | [] => []
  | f :: fs =>
    (match generateSourcesForFile env f lang with
     | some (_, g) => g
     | none => []) ++ fileGens env lang fs

/-- The status half of a single-unit generation result. -/
def fileStatus (env : Env) (lang : String) (f : FQName) : Option Nat :=
  (generateSourcesForFile env f lang).map Prod.fst

/- ===================================================================
   main.cpp : validation and the driver loop (lines 624-643, 1705-1726)
   =================================================================== -/

/-- `validateIsPackage` (main.cpp 624-643). -/
def validateIsPackage (fqName : FQName) (_lang : String) : Bool :=
  if fqName.package == "" then false
  else if fqName.version == "" then false
  else if fqName.name != "" then false
  else true

/-- One entry of the `formats` table, as the driver loop uses it. -/
structure OutputHandler where
  mKey : String
  validate : FQName → String → Bool
  generate : Env → FQName → Option (Nat × List FQName)

/-- One iteration of the driver's argument loop (main.cpp 1705-1726):
an invalid name or a failed validation exits with status 1 before the
generation function is invoked; otherwise a failing generation exits
with status 1.  The returned list holds the units generated for this
request. -/
def processArg (env : Env) (fmt : OutputHandler) (fqName : FQName) : Option (Nat × List FQName) :=
  if !fqName.isValid then some (1, [])
  else if !(fmt.validate fqName fmt.mKey) then some (1, [])
  else
    match fmt.generate env fqName with
    | none => none
    | some (st, gens) => if st ≠ OK then some (1, gens) else some (0, gens)

/-- The driver loop over the requested names: processes arguments in
order, stops at the first failure (`exit(1)`), and accumulates the units
generated by the processed requests. -/
def mainLoop (env : Env) (fmt : OutputHandler) : List FQName → Option (Nat × List FQName)
  | [] => some (0, [])
  | a :: rest =>
    match processArg env fmt a with
    | none => none
    | some (code, gens) =>
      if code ≠ 0 then some (1, gens)
      else
        match mainLoop env fmt rest with
        | none => none
        | some (c, gs) => some (c, gens ++ gs)

/- ===================================================================
   main.cpp : generateMakefileForPackage (lines 471-622)
   =================================================================== -/

/-- The member loop of `generateMakefileForPackage`: parse every member
(`none` = a parse failure, reported as `UNKNOWN_ERROR` by the caller),
remember the `types` unit's AST and count the exported types. -/
def collectMakefileInfo (env : Env) : List FQName → Option (Option AST × Nat)
  | [] => some (none, 0)
  | f :: fs =>
    match env.parse f with
    | none => none
    | some ast =>
      match collectMakefileInfo env fs with
      | none => none
      | some (tAst, cnt) =>
        some ((if f.name == "types" then some ast else tAst), ast.exportedTypesCount + cnt)

/-- `generateMakefileForPackage` (main.cpp 471-622).  The `Bool` of the
result records whether the output sink (`Android.mk`) was opened; the
text written to it once opened is not modelled.  The early `return OK`
paths return before any sink is opened. -/
def generateMakefileForPackage (env : Env) (packageFQName : FQName) : Option (Nat × Bool) :=
  if !(packageFQName.isValid && !packageFQName.isFullyQualified && packageFQName.name == "") then none
  else
    match env.members? packageFQName with
    | none => some (UNKNOWN_ERROR, false)
    | some ms =>
      match collectMakefileInfo env ms with
      | none => some (UNKNOWN_ERROR, false)
      | some (typesAST, exportedCnt) =>
        match isPackageJavaCompatible env packageFQName with
        | none => none
        | some .err => some (UNKNOWN_ERROR, false)
        | some (.ok compat) =>
          if !compat && !(decide (exportedCnt ≠ 0)) then some (OK, false)
          else
            match packageNeedsJavaCode ms typesAST with
            | none => none
            | some false => some (OK, false)
            | some true =>
              if env.openOk packageFQName then some (OK, true)
              else some (UNKNOWN_ERROR, true)

/- ===================================================================
   Helper lemmas: newline splitting
   =================================================================== -/

theorem not_newline_mem_takeWhile (t : Text) : '\n' ∉ t.takeWhile (fun c => c != '\n') := by
  intro hmem
  have := List.mem_takeWhile_imp hmem
  simp at this

theorem dropWhile_eq_nil_no_newline (t : Text) (h : '\n' ∉ t) :
    t.dropWhile (fun c => c != '\n') = [] := by
  induction t with
  | nil => simp
  | cons c cs ih =>
    have hc : c ≠ '\n' := fun hh => h (by simp [hh])
    have hcs : '\n' ∉ cs := fun hh => h (by simp [hh])
    have hb : (c != '\n') = true := by simp [bne_iff_ne, hc]
    simp [List.dropWhile_cons, hb, ih hcs]

theorem takeWhile_all_no_newline (t : Text) (h : '\n' ∉ t) :
    t.takeWhile (fun c => c != '\n') = t := by
  induction t with
  | nil => simp
  | cons c cs ih =>
    have hc : c ≠ '\n' := fun hh => h (by simp [hh])
    have hcs : '\n' ∉ cs := fun hh => h (by simp [hh])
    have hb : (c != '\n') = true := by simp [bne_iff_ne, hc]
    simp [List.takeWhile_cons, hb, ih hcs]

theorem takeWhile_line (line rest : Text) (h : '\n' ∉ line) :
    (line ++ '\n' :: rest).takeWhile (fun c => c != '\n') = line := by
  induction line with
  | nil => simp
  | cons c cs ih =>
    have hc : c ≠ '\n' := fun hh => h (by simp [hh])
    have hcs : '\n' ∉ cs := fun hh => h (by simp [hh])
    have hb : (c != '\n') = true := by simp [bne_iff_ne, hc]
    simp [List.takeWhile_cons, hb, ih hcs]

theorem dropWhile_line (line rest : Text) (h : '\n' ∉ line) :
    (line ++ '\n' :: rest).dropWhile (fun c => c != '\n') = '\n' :: rest := by
  induction line with
  | nil => simp
  | cons c cs ih =>
    have hc : c ≠ '\n' := fun hh => h (by simp [hh])
    have hcs : '\n' ∉ cs := fun hh => h (by simp [hh])
    have hb : (c != '\n') = true := by simp [bne_iff_ne, hc]
    simp [List.dropWhile_cons, hb, ih hcs]

/- ===================================================================
   Helper lemmas: one step of Formatter::operator<<
   =================================================================== -/

theorem writeStr_nil (f : Formatter) : f.writeStr [] = f := by
  rw [Formatter.writeStr]
  simp

theorem writeStr_no_newline (f : Formatter) (t : Text) (ht : t ≠ []) (hn : '\n' ∉ t) :
    f.writeStr t =
      { f with
        sink := f.sink
          ++ (if f.mAtStartOfLine then f.mLinePfx ++ indentSpaces f.mIndentDepth else [])
          ++ (if f.mSpace = [] then t else removeAll f.mSpace t),
        mAtStartOfLine := false } := by
  rw [Formatter.writeStr]
  rw [dropWhile_eq_nil_no_newline t hn]
  by_cases hA : f.mAtStartOfLine
  · simp [ht, hA, Formatter.output, List.append_assoc]
  · simp [ht, hA, Formatter.output]

theorem writeStr_newline_cons (f : Formatter) (rest : Text) :
    f.writeStr ('\n' :: rest) =
      Formatter.writeStr { f with sink := f.sink ++ ['\n'], mAtStartOfLine := true } rest := by
  rw [Formatter.writeStr]
  simp [List.dropWhile, List.takeWhile]

theorem writeStr_line (f : Formatter) (line rest : Text) (hl : line ≠ []) (hn : '\n' ∉ line) :
    f.writeStr (line ++ '\n' :: rest) =
      Formatter.writeStr
        { f with
          sink := f.sink
            ++ (if f.mAtStartOfLine then f.mLinePfx ++ indentSpaces f.mIndentDepth else [])
            ++ (if f.mSpace = [] then line ++ ['\n'] else removeAll f.mSpace (line ++ ['\n'])),
          mAtStartOfLine := true } rest := by
  rw [Formatter.writeStr]
  rw [dropWhile_line line rest hn, takeWhile_line line rest hn]
  by_cases hA : f.mAtStartOfLine
  · simp [hl, hA, Formatter.output, List.append_assoc]
  · simp [hl, hA, Formatter.output]

theorem dropWhile_head_newline (t : Text) (c : Char) (rest : Text)
    (h : t.dropWhile (fun c => c != '\n') = c :: rest) : c = '\n' := by
  induction t with
  | nil => simp at h
  | cons a as ih =>
    by_cases ha : (a != '\n') = true
    · simp only [List.dropWhile_cons, ha, if_true] at h
      exact ih h
    · have ha2 : (a != '\n') = false := eq_false_of_ne_true ha
      simp only [List.dropWhile_cons, ha2, if_false] at h
      have : a = '\n' := by simpa using ha2
      cases h
      exact this

theorem linesOf_ne_nil (t : Text) : linesOf t ≠ [] := by
  cases t with
  | nil => simp [linesOf]
  | cons c rest =>
    by_cases hc : c = '\n' <;> simp [linesOf, hc]

theorem linesOf_no_newline (t : Text) (h : '\n' ∉ t) : linesOf t = [t] := by
  induction t with
  | nil => simp [linesOf]
  | cons c cs ih =>
    have hc : c ≠ '\n' := fun hh => h (by simp [hh])
    have hcs : '\n' ∉ cs := fun hh => h (by simp [hh])
    simp [linesOf, hc, ih hcs]

theorem linesOf_newline_cons (rest : Text) : linesOf ('\n' :: rest) = [] :: linesOf rest := by
  simp [linesOf]

theorem linesOf_break (line rest : Text) (h : '\n' ∉ line) :
    linesOf (line ++ '\n' :: rest) = line :: linesOf rest := by
  induction line with
  | nil => simp [linesOf]
  | cons c cs ih =>
    have hc : c ≠ '\n' := fun hh => h (by simp [hh])
    have hcs : '\n' ∉ cs := fun hh => h (by simp [hh])
    simp [linesOf, hc, ih hcs]

theorem atStartAfter_no_newline (b : Bool) (t : Text) (ht : t ≠ []) (h : '\n' ∉ t) :
    atStartAfter b t = false := by
  cases t with
  | nil => exact absurd rfl ht
  | cons c cs =>
    simp only [atStartAfter, decide_eq_false_iff_not]
    intro hlast
    rcases List.getLast?_eq_some_iff.mp hlast with ⟨ys, hys⟩
    exact h (by rw [hys]; simp)

theorem atStartAfter_of_ne_nil (b : Bool) (t : Text) (h : t ≠ []) :
    atStartAfter b t = decide (t.getLast? = some '\n') := by
  cases t with
  | nil => exact absurd rfl h
  | cons c cs => rfl

theorem atStartAfter_break (b : Bool) (line rest : Text) :
    atStartAfter b (line ++ '\n' :: rest) = atStartAfter true rest := by
  cases rest with
  | nil =>
    rw [atStartAfter_of_ne_nil b _ (by simp)]
    rw [List.getLast?_concat line]
    simp [atStartAfter]
  | cons r rs =>
    have h1 : (line ++ '\n' :: r :: rs).getLast? = (r :: rs).getLast? := by
      rw [List.getLast?_append]
      cases h2 : (r :: rs).getLast? with
      | none => simp at h2
      | some a => simp [h2]
    rw [atStartAfter_of_ne_nil b _ (by simp), atStartAfter_of_ne_nil true _ (by simp), h1]

theorem renderLines_pair (p : Text) (d : Nat) (b : Bool) (l : Text) (ls : List Text) (h : ls ≠ []) :
    renderLines p d b (l :: ls) =
      (if l = [] then [] else (if b then p ++ indentSpaces d else []) ++ l)
        ++ '\n' :: renderLines p d true ls := by
  cases ls with
  | nil => exact absurd rfl h
  | cons l2 ls2 => rfl

/-- The general rendering behaviour of `Formatter::operator<<` when no
namespace-elision token is set: every non-empty line of the written text
is prefixed with the line prefix and the indentation (the first line only
when the emitter is at the start of a line), the lines are joined by
newlines, and afterwards the emitter is at the start of a line exactly
when the text was empty (flag unchanged) or ended in a newline. -/
theorem writeStr_render (n : Nat) : ∀ (t : Text) (f : Formatter), t.length ≤ n → f.mSpace = [] →
    f.writeStr t =
      { f with
        sink := f.sink ++ renderLines f.mLinePfx f.mIndentDepth f.mAtStartOfLine (linesOf t),
        mAtStartOfLine := atStartAfter f.mAtStartOfLine t } := by
  induction n with
  | zero =>
    intro t f hlen _
    have ht : t = [] := List.length_eq_zero.mp (Nat.le_zero.mp hlen)
    subst ht
    rw [writeStr_nil]
    simp [linesOf, renderLines, atStartAfter]
  | succ n ih =>
    intro t f hlen hsp
    have hsplit : t.takeWhile (fun c => c != '\n') ++ t.dropWhile (fun c => c != '\n') = t :=
      List.takeWhile_append_dropWhile (fun c => c != '\n') t
    cases htl : t.dropWhile (fun c => c != '\n') with
    | nil =>
      have ht : t.takeWhile (fun c => c != '\n') = t := by
        rw [htl, List.append_nil] at hsplit
        exact hsplit
      have hnn : '\n' ∉ t := by
        rw [← ht]
        exact not_newline_mem_takeWhile t
      by_cases htn : t = []
      · subst htn
        rw [writeStr_nil]
        simp [linesOf, renderLines, atStartAfter]
      · rw [writeStr_no_newline f t htn hnn]
        rw [linesOf_no_newline t hnn, atStartAfter_no_newline f.mAtStartOfLine t htn hnn]
        simp [renderLines, htn, hsp]
    | cons c rest =>
      have hc : c = '\n' := dropWhile_head_newline t c rest htl
      subst hc
      have hline : '\n' ∉ t.takeWhile (fun c => c != '\n') := not_newline_mem_takeWhile t
      have hteq : t = t.takeWhile (fun c => c != '\n') ++ '\n' :: rest := by
        rw [← htl, hsplit]
      have hrestlen : rest.length ≤ n := by
        have := congrArg List.length hteq
        simp [List.length_append] at this
        omega
      by_cases hl : t.takeWhile (fun c => c != '\n') = []
      · rw [hl, List.nil_append] at hteq
        subst hteq
        rw [writeStr_newline_cons]
        rw [ih rest _ hrestlen (by simpa using hsp)]
        rw [linesOf_newline_cons,
          show atStartAfter f.mAtStartOfLine ('\n' :: rest) = atStartAfter true rest from
            atStartAfter_break f.mAtStartOfLine [] rest]
        rw [renderLines_pair _ _ _ _ _ (linesOf_ne_nil rest)]
        simp
      · conv_lhs => rw [hteq]
        rw [writeStr_line f _ rest hl hline]
        rw [ih rest _ hrestlen (by simpa using hsp)]
        conv_rhs => rw [hteq]
        rw [linesOf_break _ rest hline, atStartAfter_break f.mAtStartOfLine _ rest]
        rw [renderLines_pair _ _ _ _ _ (linesOf_ne_nil rest)]
        simp [hl, hsp]

/- ===================================================================
   Claims C5, C6, C8, C9 : the emitter
   =================================================================== -/

/-- Helper: `operator<<` never changes which stream the formatter writes
to. -/
theorem writeStr_usesStdout (n : Nat) : ∀ (t : Text) (f : Formatter),
    t.length ≤ n → ((f.writeStr t)).usesStdout = f.usesStdout := by
  induction n with
  | zero =>
    intro t f hlen
    have ht : t = [] := List.length_eq_zero.mp (Nat.le_zero.mp hlen)
    subst ht
    rw [writeStr_nil]
  | succ n ih =>
    intro t f hlen
    have hsplit : t.takeWhile (fun c => c != '\n') ++ t.dropWhile (fun c => c != '\n') = t :=
      List.takeWhile_append_dropWhile (fun c => c != '\n') t
    cases htl : t.dropWhile (fun c => c != '\n') with
    | nil =>
      have ht : t.takeWhile (fun c => c != '\n') = t := by
        rw [htl, List.append_nil] at hsplit
        exact hsplit
      have hnn : '\n' ∉ t := by
        rw [← ht]
        exact not_newline_mem_takeWhile t
      by_cases htn : t = []
      · subst htn
        rw [writeStr_nil]
      · rw [writeStr_no_newline f t htn hnn]
    | cons c rest =>
      have hc : c = '\n' := dropWhile_head_newline t c rest htl
      subst hc
      have hline : '\n' ∉ t.takeWhile (fun c => c != '\n') := not_newline_mem_takeWhile t
      have hteq : t = t.takeWhile (fun c => c != '\n') ++ '\n' :: rest := by
        rw [← htl, hsplit]
      have hrestlen : rest.length ≤ n := by
        have := congrArg List.length hteq
        simp [List.length_append] at this
        omega
      by_cases hl : t.takeWhile (fun c => c != '\n') = []
      · rw [hl, List.nil_append] at hteq
        subst hteq
        rw [writeStr_newline_cons]
        exact ih rest _ hrestlen
      · conv_lhs => rw [hteq]
        rw [writeStr_line f _ rest hl hline]
        exact ih rest _ hrestlen

/-- C5: with no elision token set, a write renders its text line by line:
every non-empty output line is prefixed by the line prefix followed by
`4 * indentDepth` spaces, the prefix of the first line being emitted only
when the emitter was at the start of a line (lazily, so empty writes and
blank lines emit no prefix); the lines are joined by single newlines (a
trailing newline produces no spurious empty line); and afterwards a
partial line is pending (`mAtStartOfLine = false`) exactly when the text
was non-empty and did not end in a newline, the partial text already being
present in the sink. -/
theorem writeStr_lines_spec (f : Formatter) (t : Text) (h : f.mSpace = []) :
    f.writeStr t =
      { f with
        sink := f.sink ++ renderLines f.mLinePfx f.mIndentDepth f.mAtStartOfLine (linesOf t),
        mAtStartOfLine := atStartAfter f.mAtStartOfLine t } :=
  writeStr_render t.length t f (Nat.le_refl _) h

/-- C5 witness: writing `"line1\nline2"` at indent depth 2 with no line
prefix yields two lines, each beginning with exactly 8 spaces, and leaves
the emitter mid-line (the partial second line already flushed to the
sink). -/
theorem writeStr_lines_spec_witness :
    (((Formatter.construct (some ())).indent 2).writeStr ("line1\nline2".toList)).sink
        = "        line1\n        line2".toList ∧
    (((Formatter.construct (some ())).indent 2).writeStr ("line1\nline2".toList)).mAtStartOfLine
        = false := by
  rw [writeStr_lines_spec ((Formatter.construct (some ())).indent 2) ("line1\nline2".toList) rfl]
  decide

/-- C6 counterexample: after `setNamespace("\n")` (a non-empty token),
writing the text `"\n"` — which consists of exactly one occurrence of the
token — leaves the newline in the output: the blank-line branch of
`operator<<` prints `"\n"` directly, bypassing the elision filter of
`output`, so not every exact occurrence of the token is deleted (deleting
it would yield the empty output, as `removeAll` shows). -/
theorem setNamespace_newline_token_not_elided :
    (((Formatter.construct (some ())).setNamespace ['\n']).writeStr ['\n']).sink = ['\n'] ∧
    removeAll ['\n'] ['\n'] = [] ∧ (['\n'] : Text) ≠ [] := by
  refine ⟨?_, ?_, by decide⟩
  · rw [writeStr_newline_cons, writeStr_nil]
    decide
  · simp [removeAll, List.isPrefixOf]

/-- Helper step lemma for `renderLinesSp` on a multi-line list. -/
theorem renderLinesSp_pair (sp pfxText : Text) (d : Nat) (b : Bool) (l : Text)
    (ls : List Text) (h : ls ≠ []) :
    renderLinesSp sp pfxText d b (l :: ls) =
      (if l = [] then ['\n']
       else (if b then pfxText ++ indentSpaces d else []) ++ filterSp sp (l ++ ['\n']))
        ++ renderLinesSp sp pfxText d true ls := by
  cases ls with
  | nil => exact absurd rfl h
  | cons l2 ls2 => rfl

/-- Helper: the complete rendering behaviour of `Formatter::operator<<`
for an arbitrary emitter state (any elision token): the text is cut at
newlines; each blank line prints a bare newline directly, bypassing the
elision filter; every other segment — the line together with its
trailing newline, or the final line without one — is passed through the
filter, which deletes the token's occurrences within the segment by one
left-to-right, non-overlapping scan; non-empty lines are prefixed
lazily. -/
theorem writeStr_render_sp (n : Nat) : ∀ (t : Text) (f : Formatter), t.length ≤ n →
    f.writeStr t =
      { f with
        sink := f.sink
          ++ renderLinesSp f.mSpace f.mLinePfx f.mIndentDepth f.mAtStartOfLine (linesOf t),
        mAtStartOfLine := atStartAfter f.mAtStartOfLine t } := by
  induction n with
  | zero =>
    intro t f hlen
    have ht : t = [] := List.length_eq_zero.mp (Nat.le_zero.mp hlen)
    subst ht
    rw [writeStr_nil]
    simp [linesOf, renderLinesSp, atStartAfter]
  | succ n ih =>
    intro t f hlen
    have hsplit : t.takeWhile (fun c => c != '\n') ++ t.dropWhile (fun c => c != '\n') = t :=
      List.takeWhile_append_dropWhile (fun c => c != '\n') t
    cases htl : t.dropWhile (fun c => c != '\n') with
    | nil =>
      have ht : t.takeWhile (fun c => c != '\n') = t := by
        rw [htl, List.append_nil] at hsplit
        exact hsplit
      have hnn : '\n' ∉ t := by
        rw [← ht]
        exact not_newline_mem_takeWhile t
      by_cases htn : t = []
      · subst htn
        rw [writeStr_nil]
        simp [linesOf, renderLinesSp, atStartAfter]
      · rw [writeStr_no_newline f t htn hnn]
        rw [linesOf_no_newline t hnn, atStartAfter_no_newline f.mAtStartOfLine t htn hnn]
        simp [renderLinesSp, htn, filterSp]
    | cons c rest =>
      have hc : c = '\n' := dropWhile_head_newline t c rest htl
      subst hc
      have hline : '\n' ∉ t.takeWhile (fun c => c != '\n') := not_newline_mem_takeWhile t
      have hteq : t = t.takeWhile (fun c => c != '\n') ++ '\n' :: rest := by
        rw [← htl, hsplit]
      have hrestlen : rest.length ≤ n := by
        have := congrArg List.length hteq
        simp [List.length_append] at this
        omega
      by_cases hl : t.takeWhile (fun c => c != '\n') = []
      · rw [hl, List.nil_append] at hteq
        subst hteq
        rw [writeStr_newline_cons]
        rw [ih rest _ hrestlen]
        rw [linesOf_newline_cons,
          show atStartAfter f.mAtStartOfLine ('\n' :: rest) = atStartAfter true rest from
            atStartAfter_break f.mAtStartOfLine [] rest]
        rw [renderLinesSp_pair _ _ _ _ _ _ (linesOf_ne_nil rest)]
        simp
      · conv_lhs => rw [hteq]
        rw [writeStr_line f _ rest hl hline]
        rw [ih rest _ hrestlen]
        conv_rhs => rw [hteq]
        rw [linesOf_break _ rest hline, atStartAfter_break f.mAtStartOfLine _ rest]
        rw [renderLinesSp_pair _ _ _ _ _ _ (linesOf_ne_nil rest)]
        simp [hl, filterSp]

/-- C6 (amended): after `setNamespace(token)` with a non-empty token, a
write's text is processed in newline-delimited segments: a blank line
emits a bare newline directly, bypassing the elision filter, while every
other segment — the line text together with its trailing newline, or the
final text without one — is passed through the filter, which deletes
every occurrence of the token within the segment by a single
left-to-right scan resuming after each deleted match (non-overlapping),
before the text reaches the output sink and regardless of surrounding
punctuation.  Occurrences lying wholly inside one such segment are
deleted, including ones ending with the segment's trailing newline
(token `"a\n"` in the write `"ba\n"` is elided, leaving `"b"`);
occurrences are not deleted when they involve a blank line's directly
printed newline, continue past a segment's trailing newline into the
next line, or span several writes.  In particular `setNamespace("foo::")`
applied to the write `"foo::Bar foo::Baz"` outputs `"Bar Baz"`. -/
theorem writeStr_elide_spec (f : Formatter) (t : Text) (_hsp : f.mSpace ≠ []) :
    f.writeStr t =
      { f with
        sink := f.sink
          ++ renderLinesSp f.mSpace f.mLinePfx f.mIndentDepth f.mAtStartOfLine (linesOf t),
        mAtStartOfLine := atStartAfter f.mAtStartOfLine t } :=
  writeStr_render_sp t.length t f (Nat.le_refl _)

/-- C6 witness: the `"foo::"` example of the claim, and a token
containing a newline (`"a\n"`) that is elided because it lies within one
filtered segment, ending at the segment's trailing newline. -/
theorem writeStr_elide_spec_witness :
    (((Formatter.construct (some ())).setNamespace ("foo::".toList)).writeStr
        ("foo::Bar foo::Baz".toList)).sink = "Bar Baz".toList ∧
    (((Formatter.construct (some ())).setNamespace ("a\n".toList)).writeStr
        ("ba\n".toList)).sink = ['b'] := by
  constructor
  · rw [writeStr_elide_spec _ _ (by decide)]
    simp [Formatter.construct, Formatter.setNamespace, renderLinesSp, linesOf, filterSp,
      indentSpaces, removeAll, List.isPrefixOf]
  · rw [writeStr_elide_spec _ _ (by decide)]
    simp [Formatter.construct, Formatter.setNamespace, renderLinesSp, linesOf, filterSp,
      indentSpaces, removeAll, List.isPrefixOf]

/-- C8: `unindent(level)` with `level` greater than the current depth
fails the `assert` (reported invariant violation, no silent clamp or
wrap-around); every other call decreases the depth by exactly `level`,
and the resulting depth `g.mIndentDepth = f.mIndentDepth - level` is a
natural number, never below zero. -/
theorem unindent_exact (f : Formatter) (level : Nat) :
    (f.mIndentDepth < level → f.unindent level = none) ∧
    (level ≤ f.mIndentDepth →
      f.unindent level = some { f with mIndentDepth := f.mIndentDepth - level }) ∧
    (∀ g, f.unindent level = some g → g.mIndentDepth + level = f.mIndentDepth) := by
  refine ⟨?_, ?_, ?_⟩
  · intro h
    rw [Formatter.unindent, if_neg (by omega)]
  · intro h
    rw [Formatter.unindent, if_pos h]
  · intro g hg
    rw [Formatter.unindent] at hg
    split at hg
    · cases hg
      simp
      omega
    · exact Option.noConfusion hg

/-- C8 witness: at depth 3, `unindent 5` is the reported invariant
violation and `unindent 2` lands exactly at depth 1. -/
theorem unindent_exact_witness :
    ((Formatter.construct (some ())).indent 3).unindent 5 = none ∧
    (((Formatter.construct (some ())).indent 3).unindent 2
      = some { (Formatter.construct (some ())).indent 3 with mIndentDepth := 3 - 2 }) :=
  ⟨(unindent_exact ((Formatter.construct (some ())).indent 3) 5).1 (by decide),
   (unindent_exact ((Formatter.construct (some ())).indent 3) 2).2.1 (by decide)⟩

/-- C9 counterexample: an emitter constructed from a destination that
failed to open (a `NULL` file) does *not* treat writes as no-ops: writing
`"x"` to it produces output (on the substituted `stdout` stream), so the
claimed "no output" behaviour is false. -/
theorem invalid_formatter_write_not_noop :
    ((Formatter.construct none).writeStr ['x']).sink ≠ [] := by
  rw [writeStr_render 1 ['x'] (Formatter.construct none) (by decide) rfl]
  decide

/-- C9 (amended): an emitter constructed from a destination that failed
to open substitutes the process's standard output for the `NULL` file, so
callers that write to it do not crash: every write is well defined and is
forwarded to `stdout` (it stays the emitter's stream), rather than being
suppressed; a validity query on such an emitter is not implemented in
this file. -/
theorem construct_failed_falls_back_stdout :
    (Formatter.construct none).usesStdout = true ∧
    (∀ t : Text, ((Formatter.construct none).writeStr t).usesStdout = true) ∧
    ((Formatter.construct none).writeStr ['x']).sink = ['x'] := by
  refine ⟨rfl, ?_, ?_⟩
  · intro t
    rw [writeStr_usesStdout t.length t (Formatter.construct none) (Nat.le_refl _)]
    rfl
  · rw [writeStr_render 1 ['x'] (Formatter.construct none) (by decide) rfl]
    decide

/- ===================================================================
   Claim C4 : packageNeedsJavaCode
   =================================================================== -/

/-- C4: for every non-empty member list, `packageNeedsJavaCode` returns
`false` exactly when the sole member is the `"types"` unit and every type
it declares is a pure alias (`isTypeDef`), and returns `true` whenever a
second member exists or some declared type is a concrete (non-typedef)
declaration. -/
theorem packageNeedsJavaCode_iff (first : FQName) (rest : List FQName) (ast : AST) :
    (packageNeedsJavaCode (first :: rest) (some ast) = some false ↔
      (rest = [] ∧ first.name = "types" ∧ ∀ t ∈ ast.subTypes, t.isTypeDef = true)) ∧
    ((rest ≠ [] ∨ ∃ t ∈ ast.subTypes, t.isTypeDef = false) →
      packageNeedsJavaCode (first :: rest) (some ast) = some true) := by
  by_cases hg : (decide (rest.length + 1 > 1) || (first.name != "types")) = true
  · have h1 : packageNeedsJavaCode (first :: rest) (some ast) = some true := by
      simp only [packageNeedsJavaCode, hg, if_true]
    have h2 : rest ≠ [] ∨ first.name ≠ "types" := by
      rcases Bool.or_eq_true_iff.mp hg with h | h
      · left
        have : rest.length + 1 > 1 := of_decide_eq_true h
        intro hr
        subst hr
        simp at this
      · right
        simpa using h
    refine ⟨?_, fun _ => h1⟩
    rw [h1]
    simp only [Option.some.injEq]
    constructor
    · intro hfalse
      cases hfalse
    · rintro ⟨hrest, hname, -⟩
      rcases h2 with h | h
      · exact absurd hrest h
      · exact absurd hname h
  · have hr : rest = [] := by
      rcases Bool.or_eq_false_iff.mp (eq_false_of_ne_true hg) with ⟨h, -⟩
      have := of_decide_eq_false h
      cases rest with
      | nil => rfl
      | cons a as => simp at this
    have hn : first.name = "types" := by
      rcases Bool.or_eq_false_iff.mp (eq_false_of_ne_true hg) with ⟨-, h⟩
      simpa using h
    have h1 : packageNeedsJavaCode (first :: rest) (some ast)
        = some (ast.subTypes.any (fun t => !t.isTypeDef)) := by
      simp only [packageNeedsJavaCode, hg]
      rw [if_neg (by simp [hg])]
    refine ⟨?_, ?_⟩
    · rw [h1]
      simp only [Option.some.injEq]
      constructor
      · intro h
        refine ⟨hr, hn, ?_⟩
        intro t ht
        have := List.any_eq_false.mp h t ht
        simpa using this
      · rintro ⟨-, -, hall⟩
        rw [List.any_eq_false]
        intro t ht
        simp [hall t ht]
    · rintro (h | ⟨t, ht, htd⟩)
      · exact absurd hr h
      · rw [h1]
        have : ast.subTypes.any (fun t => !t.isTypeDef) = true :=
          List.any_eq_true.mpr ⟨t, ht, by simp [htd]⟩
        rw [this]

/-- C4 witness: a package whose sole member is `"types"` declaring only
typedefs needs no Java code; adding a second member makes Java code
needed. -/
theorem packageNeedsJavaCode_iff_witness :
    packageNeedsJavaCode [⟨"p", "1.0", "types"⟩]
        (some ⟨true, [], [⟨true⟩, ⟨true⟩], 0⟩) = some false ∧
    packageNeedsJavaCode [⟨"p", "1.0", "types"⟩, ⟨"p", "1.0", "IFoo"⟩]
        (some ⟨true, [], [⟨true⟩], 0⟩) = some true :=
  ⟨(packageNeedsJavaCode_iff ⟨"p", "1.0", "types"⟩ [] ⟨true, [], [⟨true⟩, ⟨true⟩], 0⟩).1.mpr
      ⟨rfl, rfl, by decide⟩,
   (packageNeedsJavaCode_iff ⟨"p", "1.0", "types"⟩ [⟨"p", "1.0", "IFoo"⟩]
      ⟨true, [], [⟨true⟩], 0⟩).2 (Or.inl (by decide))⟩

/- ===================================================================
   Claims C3, C7 : fan-out dispatch and validation
   =================================================================== -/

/-- Helper: when every member's generation succeeds, the package loop
succeeds and generates each member's units in member order. -/
theorem packageLoop_all_ok (env : Env) (lang : String) : ∀ (ms acc : List FQName),
    (∀ f ∈ ms, fileStatus env lang f = some OK) →
    generateSourcesForPackageLoop env lang ms acc = some (OK, acc ++ fileGens env lang ms) := by
  intro ms
  induction ms with
  | nil =>
    intro acc _
    simp [generateSourcesForPackageLoop, fileGens]
  | cons f fs ih =>
    intro acc h
    have hf := h f (by simp)
    cases hg : generateSourcesForFile env f lang with
    | none => rw [fileStatus, hg] at hf; cases hf
    | some r =>
      rcases r with ⟨st, g⟩
      have hst : st = OK := by
        rw [fileStatus, hg] at hf
        simpa using hf
      subst hst
      simp only [generateSourcesForPackageLoop, hg]
      rw [if_neg (by simp)]
      rw [ih (acc ++ g) (fun x hx => h x (by simp [hx]))]
      simp [fileGens, hg, List.append_assoc]

/-- Helper: a failing member stops the package loop at once with that
member's status, keeping what the earlier members generated and touching
none of the later members. -/
theorem packageLoop_fail (env : Env) (lang : String) (bad : FQName) (post : List FQName)
    (st : Nat) (g : List FQName) : ∀ (pre acc : List FQName),
    (∀ f ∈ pre, fileStatus env lang f = some OK) →
    generateSourcesForFile env bad lang = some (st, g) → st ≠ OK →
    generateSourcesForPackageLoop env lang (pre ++ bad :: post) acc
      = some (st, acc ++ fileGens env lang pre ++ g) := by
  intro pre
  induction pre with
  | nil =>
    intro acc _ hbad hst
    simp only [List.nil_append, generateSourcesForPackageLoop, hbad]
    rw [if_pos hst]
    simp [fileGens]
  | cons f fs ih =>
    intro acc h hbad hst
    have hf := h f (by simp)
    cases hg : generateSourcesForFile env f lang with
    | none => rw [fileStatus, hg] at hf; cases hf
    | some r =>
      rcases r with ⟨st2, g2⟩
      have hst2 : st2 = OK := by
        rw [fileStatus, hg] at hf
        simpa using hf
      subst hst2
      simp only [List.cons_append, generateSourcesForPackageLoop, hg]
      rw [if_neg (by simp)]
      simp only [List.append_eq]
      rw [ih (acc ++ g2) (fun x hx => h x (by simp [hx])) hbad hst]
      simp [fileGens, hg, List.append_assoc]

/-- C3: the backend fan-out.  A fully qualified request is dispatched to
the single-unit generator, which touches no unit other than the requested
one and, on success of a source-generating language, generates exactly
that unit.  A bare-package request enumerates the package's members in
order: if every member succeeds, each member's units are generated in
that order; the first member that fails makes the whole request return
that member's failure immediately — no later member is attempted, while
units generated by earlier members (and by the failing member itself)
remain. -/
theorem generation_fanout_spec (env : Env) (lang : String) (fqName : FQName) :
    (fqName.isFullyQualified = true →
      generationFunctionForFileOrPackage env lang fqName = generateSourcesForFile env fqName lang ∧
      (∀ st gen, generateSourcesForFile env fqName lang = some (st, gen) →
        (∀ u ∈ gen, u = fqName) ∧ (st = OK → lang ≠ "check" → gen = [fqName]))) ∧
    (fqName.isFullyQualified = false →
      generationFunctionForFileOrPackage env lang fqName = generateSourcesForPackage env fqName lang ∧
      ∀ ms, (fqName.isValid && !fqName.isFullyQualified && fqName.name == "") = true →
        env.members? fqName = some ms →
        (((∀ f ∈ ms, fileStatus env lang f = some OK) →
            generateSourcesForPackage env fqName lang = some (OK, fileGens env lang ms)) ∧
          (∀ pre bad post st g, ms = pre ++ bad :: post →
            (∀ f ∈ pre, fileStatus env lang f = some OK) →
            generateSourcesForFile env bad lang = some (st, g) → st ≠ OK →
            generateSourcesForPackage env fqName lang = some (st, fileGens env lang pre ++ g)))) := by
  constructor
  · intro hfq
    refine ⟨by simp [generationFunctionForFileOrPackage, hfq], ?_⟩
    intro st gen h
    rw [generateSourcesForFile] at h
    rw [if_neg (by simp [hfq])] at h
    by_cases htypes : "types.".isPrefixOf fqName.name
    · rw [if_pos htypes] at h
      by_cases hjava : lang = "java"
      · rw [if_pos hjava] at h
        cases hp : env.parse fqName.getTypesForPackage with
        | none =>
          rw [hp] at h
          cases h
          exact ⟨by simp, by intro hok; cases hok⟩
        | some a =>
          rw [hp] at h
          cases h
          exact ⟨by simp, fun _ _ => rfl⟩
      · rw [if_neg hjava] at h
        cases h
    · rw [if_neg htypes] at h
      cases hp : env.parse fqName with
      | none =>
        rw [hp] at h
        cases h
        exact ⟨by simp, by intro hok; cases hok⟩
      | some a =>
        rw [hp] at h
        by_cases hcheck : lang = "check"
        · rw [if_pos hcheck] at h
          cases h
          exact ⟨by simp, fun _ hne => absurd hcheck hne⟩
        · rw [if_neg hcheck] at h
          by_cases hknown : lang ∈ knownLangs
          · rw [if_pos hknown] at h
            cases h
            exact ⟨by simp, fun _ _ => rfl⟩
          · rw [if_neg hknown] at h
            cases h
            exact ⟨by simp, by intro hok; cases hok⟩
  · intro hfq
    refine ⟨by simp [generationFunctionForFileOrPackage, hfq], ?_⟩
    intro ms hguard hms
    have hrw : generateSourcesForPackage env fqName lang = generateSourcesForPackageLoop env lang ms [] := by
      rw [generateSourcesForPackage, if_neg (by simp [hguard]), hms]
    constructor
    · intro hall
      rw [hrw, packageLoop_all_ok env lang ms [] hall]
      simp
    · intro pre bad post st g hsplit hpre hbad hst
      rw [hrw, hsplit, packageLoop_fail env lang bad post st g pre [] hpre hbad hst]
      simp

/-- C3 witness: a three-member package where the second member fails:
the first member's unit is generated, the failing member's status is
returned as the package status, and the third member is never
attempted. -/
theorem generation_fanout_spec_witness :
    generateSourcesForPackage
        ⟨[(⟨"p", "1.0", ""⟩, [⟨"p", "1.0", "types"⟩, ⟨"p", "1.0", "IFoo"⟩, ⟨"p", "1.0", "IBar"⟩])],
         [(⟨"p", "1.0", "types"⟩, ⟨true, [], [], 0⟩), (⟨"p", "1.0", "IFoo"⟩, ⟨true, [], [], 0⟩),
          (⟨"p", "1.0", "IBar"⟩, ⟨true, [], [], 0⟩)],
         fun f _ => if f.name = "IFoo" then 1 else 0,
         fun _ => true⟩
        ⟨"p", "1.0", ""⟩ "c++"
      = some (1, [⟨"p", "1.0", "types"⟩, ⟨"p", "1.0", "IFoo"⟩]) := by
  have h := ((generation_fanout_spec
      ⟨[(⟨"p", "1.0", ""⟩, [⟨"p", "1.0", "types"⟩, ⟨"p", "1.0", "IFoo"⟩, ⟨"p", "1.0", "IBar"⟩])],
       [(⟨"p", "1.0", "types"⟩, ⟨true, [], [], 0⟩), (⟨"p", "1.0", "IFoo"⟩, ⟨true, [], [], 0⟩),
        (⟨"p", "1.0", "IBar"⟩, ⟨true, [], [], 0⟩)],
       fun f _ => if f.name = "IFoo" then 1 else 0,
       fun _ => true⟩ "c++" ⟨"p", "1.0", ""⟩).2 (by decide)).2
      [⟨"p", "1.0", "types"⟩, ⟨"p", "1.0", "IFoo"⟩, ⟨"p", "1.0", "IBar"⟩]
      (by decide) (by decide)
  have h2 := h.2 [⟨"p", "1.0", "types"⟩] ⟨"p", "1.0", "IFoo"⟩ [⟨"p", "1.0", "IBar"⟩]
      1 [⟨"p", "1.0", "IFoo"⟩] (by decide) (by decide) (by decide) (by decide)
  rw [h2]
  decide

/-- C7: when the requested name fails the selected backend's validation
predicate, the driver exits with status 1 before the backend's generation
routine runs (the result does not depend on the generation function at
all), and zero output units are produced for that request. -/
theorem validation_failure_no_generation (env : Env) (key : String)
    (validate : FQName → String → Bool) (gen : Env → FQName → Option (Nat × List FQName))
    (fqName : FQName) (hv : fqName.isValid = true) (hval : validate fqName key = false) :
    mainLoop env ⟨key, validate, gen⟩ [fqName] = some (1, []) := by
  simp [mainLoop, processArg, hv, hval]

/-- C7 witness: a bare-package-only backend (validated by
`validateIsPackage`, e.g. `-Lc++-adapter-main`) given the fully qualified
single-interface name `android.hardware.nfc@1.0::INfc` fails with exit
status 1 and creates nothing, whatever its generation function would
do. -/
theorem validation_failure_no_generation_witness :
    mainLoop ⟨[], [], fun _ _ => 0, fun _ => true⟩
        ⟨"c++-adapter-main", validateIsPackage, fun _ f => some (OK, [f])⟩
        [⟨"android.hardware.nfc", "1.0", "INfc"⟩] = some (1, []) :=
  validation_failure_no_generation ⟨[], [], fun _ _ => 0, fun _ => true⟩
    "c++-adapter-main" validateIsPackage (fun _ f => some (OK, [f]))
    ⟨"android.hardware.nfc", "1.0", "INfc"⟩ (by decide) (by decide)

/- ===================================================================
   Claim C10 : generateMakefileForPackage may succeed with no output
   =================================================================== -/

/-- C10: the makefile backend can return success while creating no output
file: when the package is not Java-compatible and exports no constants,
or when the package needs no generated Java code,
`generateMakefileForPackage` returns `OK` before any output sink is
opened — so a zero exit of this backend does not guarantee that an
`Android.mk` was written. -/
theorem generateMakefile_ok_without_output (env : Env) (pkg : FQName) (ms : List FQName)
    (tAst : Option AST) (cnt : Nat) (compat : Bool)
    (hguard : (pkg.isValid && !pkg.isFullyQualified && pkg.name == "") = true)
    (hms : env.members? pkg = some ms)
    (hcollect : collectMakefileInfo env ms = some (tAst, cnt))
    (hcompat : isPackageJavaCompatible env pkg = some (.ok compat))
    (hcase : (compat = false ∧ cnt = 0) ∨ packageNeedsJavaCode ms tAst = some false) :
    generateMakefileForPackage env pkg = some (OK, false) := by
  rw [generateMakefileForPackage, if_neg (by simp [hguard])]
  simp only [hms, hcollect, hcompat]
  rcases hcase with ⟨hc, hcnt⟩ | hneeds
  · subst hc
    subst hcnt
    simp
  · by_cases hfirst : (!compat && !(decide (cnt ≠ 0))) = true
    · simp only [hfirst, if_true]
    · simp only [eq_false_of_ne_true hfirst, if_false, Bool.false_eq_true]
      rw [hneeds]

/-- C10 witness: a compatible package whose sole member is a typedef-only
`"types"` unit: the run returns `OK` with the sink never opened, i.e. no
`Android.mk` is created despite the zero exit status. -/
theorem generateMakefile_ok_without_output_witness :
    generateMakefileForPackage
        ⟨[(⟨"p", "1.0", ""⟩, [⟨"p", "1.0", "types"⟩])],
         [(⟨"p", "1.0", "types"⟩, ⟨true, [], [⟨true⟩], 0⟩)],
         fun _ _ => 0, fun _ => true⟩
        ⟨"p", "1.0", ""⟩ = some (OK, false) :=
  generateMakefile_ok_without_output
    ⟨[(⟨"p", "1.0", ""⟩, [⟨"p", "1.0", "types"⟩])],
     [(⟨"p", "1.0", "types"⟩, ⟨true, [], [⟨true⟩], 0⟩)],
     fun _ _ => 0, fun _ => true⟩
    ⟨"p", "1.0", ""⟩ [⟨"p", "1.0", "types"⟩] (some ⟨true, [], [⟨true⟩], 0⟩) 0 true
    (by decide) (by decide) (by decide) (by decide) (Or.inr (by decide))

/- ===================================================================
   Helper lemmas: addIfaces (the std::set-merge inner loop)
   =================================================================== -/

theorem addIfaces_todo_sub : ∀ (l todo seen : List FQName) (x : FQName),
    x ∈ todo → x ∈ (addIfaces l todo seen).1 := by
  intro l
  induction l with
  | nil => intro todo seen x hx; simpa [addIfaces] using hx
  | cons i rest ih =>
    intro todo seen x hx
    by_cases hi : i ∈ seen
    · rw [addIfaces, if_pos hi]
      exact ih todo seen x hx
    · rw [addIfaces, if_neg hi]
      exact ih _ _ x (by simp [hx])

theorem addIfaces_seen_sub : ∀ (l todo seen : List FQName) (x : FQName),
    x ∈ seen → x ∈ (addIfaces l todo seen).2 := by
  intro l
  induction l with
  | nil => intro todo seen x hx; simpa [addIfaces] using hx
  | cons i rest ih =>
    intro todo seen x hx
    by_cases hi : i ∈ seen
    · rw [addIfaces, if_pos hi]
      exact ih todo seen x hx
    · rw [addIfaces, if_neg hi]
      exact ih _ _ x (by simp [hx])

theorem addIfaces_mem_l_seen : ∀ (l todo seen : List FQName) (x : FQName),
    x ∈ l → x ∈ (addIfaces l todo seen).2 := by
  intro l
  induction l with
  | nil => intro todo seen x hx; cases hx
  | cons i rest ih =>
    intro todo seen x hx
    rcases List.mem_cons.mp hx with hx | hx
    · subst hx
      by_cases hi : x ∈ seen
      · rw [addIfaces, if_pos hi]
        exact addIfaces_seen_sub rest todo seen x hi
      · rw [addIfaces, if_neg hi]
        exact addIfaces_seen_sub rest _ _ x (by simp)
    · by_cases hi : i ∈ seen
      · rw [addIfaces, if_pos hi]
        exact ih todo seen x hx
      · rw [addIfaces, if_neg hi]
        exact ih _ _ x hx

theorem addIfaces_seen_cases : ∀ (l todo seen : List FQName) (x : FQName),
    x ∈ (addIfaces l todo seen).2 → x ∈ seen ∨ x ∈ l := by
  intro l
  induction l with
  | nil => intro todo seen x hx; exact Or.inl (by simpa [addIfaces] using hx)
  | cons i rest ih =>
    intro todo seen x hx
    by_cases hi : i ∈ seen
    · rw [addIfaces, if_pos hi] at hx
      rcases ih todo seen x hx with h | h
      · exact Or.inl h
      · exact Or.inr (by simp [h])
    · rw [addIfaces, if_neg hi] at hx
      rcases ih _ _ x hx with h | h
      · rcases List.mem_cons.mp h with h | h
        · exact Or.inr (by simp [h])
        · exact Or.inl h
      · exact Or.inr (by simp [h])

theorem addIfaces_todo_new : ∀ (l todo seen : List FQName) (x : FQName),
    x ∈ (addIfaces l todo seen).1 → x ∈ todo ∨ x ∉ seen := by
  intro l
  induction l with
  | nil => intro todo seen x hx; exact Or.inl (by simpa [addIfaces] using hx)
  | cons i rest ih =>
    intro todo seen x hx
    by_cases hi : i ∈ seen
    · rw [addIfaces, if_pos hi] at hx
      exact ih todo seen x hx
    · rw [addIfaces, if_neg hi] at hx
      rcases ih _ _ x hx with h | h
      · rcases (List.mem_append.mp h) with h | h
        · exact Or.inl h
        · right
          have : x = i := by simpa using h
          subst this
          exact hi
      · right
        intro hxs
        exact h (by simp [hxs])

theorem addIfaces_seen_todo : ∀ (l todo seen : List FQName) (x : FQName),
    x ∈ (addIfaces l todo seen).2 → x ∈ seen ∨ x ∈ (addIfaces l todo seen).1 := by
  intro l
  induction l with
  | nil => intro todo seen x hx; exact Or.inl (by simpa [addIfaces] using hx)
  | cons i rest ih =>
    intro todo seen x hx
    by_cases hi : i ∈ seen
    · rw [addIfaces, if_pos hi] at hx ⊢
      exact ih todo seen x hx
    · rw [addIfaces, if_neg hi] at hx ⊢
      rcases ih _ _ x hx with h | h
      · rcases List.mem_cons.mp h with h | h
        · subst h
          exact Or.inr (addIfaces_todo_sub rest _ _ x (by simp))
        · exact Or.inl h
      · exact Or.inr h

theorem addIfaces_sub_seen : ∀ (l todo seen : List FQName),
    (∀ x ∈ todo, x ∈ seen) →
    ∀ x ∈ (addIfaces l todo seen).1, x ∈ (addIfaces l todo seen).2 := by
  intro l
  induction l with
  | nil => intro todo seen h x hx; simp only [addIfaces] at hx ⊢; exact h x hx
  | cons i rest ih =>
    intro todo seen h x hx
    by_cases hi : i ∈ seen
    · rw [addIfaces, if_pos hi] at hx ⊢
      exact ih todo seen h x hx
    · rw [addIfaces, if_neg hi] at hx ⊢
      refine ih _ _ ?_ x hx
      intro y hy
      rcases List.mem_append.mp hy with hy | hy
      · exact List.mem_cons.mpr (Or.inr (h y hy))
      · have : y = i := by simpa using hy
        subst this
        simp

theorem addIfaces_nodup : ∀ (l todo seen : List FQName),
    todo.Nodup → (∀ x ∈ todo, x ∈ seen) → (addIfaces l todo seen).1.Nodup := by
  intro l
  induction l with
  | nil => intro todo seen h _; simpa [addIfaces] using h
  | cons i rest ih =>
    intro todo seen hnd hsub
    by_cases hi : i ∈ seen
    · rw [addIfaces, if_pos hi]
      exact ih todo seen hnd hsub
    · rw [addIfaces, if_neg hi]
      refine ih _ _ ?_ ?_
      · rw [List.nodup_append]
        refine ⟨hnd, by simp, ?_⟩
        intro y hy
        simp only [List.mem_singleton]
        intro hyi
        subst hyi
        exact hi (hsub y hy)
      · intro y hy
        rcases List.mem_append.mp hy with hy | hy
        · exact List.mem_cons.mpr (Or.inr (hsub y hy))
        · have : y = i := by simpa using hy
          subst this
          simp

/- ===================================================================
   Helper lemmas: the loop measure
   =================================================================== -/

theorem filter_notMem_sublist (i : FQName) (seen U : List FQName) :
    (U.filter (fun u => decide (u ∉ i :: seen))).Sublist (U.filter (fun u => decide (u ∉ seen))) := by
  apply List.monotone_filter_right
  intro a ha
  have h2 : a ∉ i :: seen := of_decide_eq_true ha
  exact decide_eq_true (fun hmem => h2 (List.mem_cons_of_mem i hmem))

theorem filter_notMem_lt (i : FQName) (seen : List FQName) (hs : i ∉ seen) (U : List FQName)
    (hU : i ∈ U) :
    (U.filter (fun u => decide (u ∉ i :: seen))).length
      < (U.filter (fun u => decide (u ∉ seen))).length := by
  have hsub := filter_notMem_sublist i seen U
  have hle := hsub.length_le
  by_cases hlt : (U.filter (fun u => decide (u ∉ i :: seen))).length
      < (U.filter (fun u => decide (u ∉ seen))).length
  · exact hlt
  · exfalso
    have heq : (U.filter (fun u => decide (u ∉ i :: seen)))
        = (U.filter (fun u => decide (u ∉ seen))) :=
      hsub.eq_of_length (Nat.le_antisymm hle (Nat.not_lt.mp hlt))
    have hi2 : i ∈ U.filter (fun u => decide (u ∉ seen)) :=
      List.mem_filter.mpr ⟨hU, decide_eq_true hs⟩
    rw [← heq] at hi2
    have h3 := (List.mem_filter.mp hi2).2
    have h4 : i ∉ i :: seen := of_decide_eq_true h3
    exact h4 (by simp)

theorem unseenCount_insert_lt (env : Env) (i : FQName) (seen : List FQName)
    (hU : i ∈ universeOf env) (hs : i ∉ seen) :
    unseenCount env (i :: seen) < unseenCount env seen :=
  filter_notMem_lt i seen hs (universeOf env) hU

theorem members_sub_universe (env : Env) (p : FQName) (l : List FQName)
    (h : env.members? p = some l) : ∀ i ∈ l, i ∈ universeOf env := by
  intro i hi
  rw [Env.members?] at h
  cases hf : env.packages.find? (fun e => e.1 == p) with
  | none => rw [hf] at h; cases h
  | some e =>
    rw [hf] at h
    have he : e ∈ env.packages := List.mem_of_find?_eq_some hf
    have hl : e.2 = l := by simpa using h
    rw [universeOf, List.mem_flatten]
    exact ⟨e.2, List.mem_map.mpr ⟨e, he, rfl⟩, by rw [hl]; exact hi⟩

theorem addIfaces_measure (env : Env) : ∀ (l todo seen : List FQName),
    (∀ i ∈ l, i ∈ universeOf env) →
    (addIfaces l todo seen).1.length + unseenCount env (addIfaces l todo seen).2
      ≤ todo.length + unseenCount env seen := by
  intro l
  induction l with
  | nil => intro todo seen _; simp [addIfaces]
  | cons i rest ih =>
    intro todo seen h
    by_cases hi : i ∈ seen
    · rw [addIfaces, if_pos hi]
      exact ih todo seen (fun x hx => h x (by simp [hx]))
    · rw [addIfaces, if_neg hi]
      calc (addIfaces rest (todo ++ [i]) (i :: seen)).1.length
            + unseenCount env (addIfaces rest (todo ++ [i]) (i :: seen)).2
          ≤ (todo ++ [i]).length + unseenCount env (i :: seen) :=
            ih _ _ (fun x hx => h x (by simp [hx]))
        _ ≤ todo.length + 1 + unseenCount env (i :: seen) := by simp
        _ ≤ todo.length + unseenCount env seen := by
            have := unseenCount_insert_lt env i seen (h i (by simp)) hi
            omega

/- ===================================================================
   Helper lemmas: expandImports (the imported-package loop)
   =================================================================== -/

theorem expandImports_todo_sub (env : Env) : ∀ (ps todo seen : List FQName)
    (r : List FQName × List FQName), expandImports env ps todo seen = some r →
    ∀ x ∈ todo, x ∈ r.1 := by
  intro ps
  induction ps with
  | nil => intro todo seen r h x hx; cases h; exact hx
  | cons p rest ih =>
    intro todo seen r h x hx
    rw [expandImports] at h
    cases hm : env.members? p with
    | none => rw [hm] at h; cases h
    | some ifaces =>
      rw [hm] at h
      exact ih _ _ r h x (addIfaces_todo_sub ifaces todo seen x hx)

theorem expandImports_seen_sub (env : Env) : ∀ (ps todo seen : List FQName)
    (r : List FQName × List FQName), expandImports env ps todo seen = some r →
    ∀ x ∈ seen, x ∈ r.2 := by
  intro ps
  induction ps with
  | nil => intro todo seen r h x hx; cases h; exact hx
  | cons p rest ih =>
    intro todo seen r h x hx
    rw [expandImports] at h
    cases hm : env.members? p with
    | none => rw [hm] at h; cases h
    | some ifaces =>
      rw [hm] at h
      exact ih _ _ r h x (addIfaces_seen_sub ifaces todo seen x hx)

theorem expandImports_seen_cases (env : Env) : ∀ (ps todo seen : List FQName)
    (r : List FQName × List FQName), expandImports env ps todo seen = some r →
    ∀ x ∈ r.2, x ∈ seen ∨ ∃ p ∈ ps, ∃ l, env.members? p = some l ∧ x ∈ l := by
  intro ps
  induction ps with
  | nil => intro todo seen r h x hx; cases h; exact Or.inl hx
  | cons p rest ih =>
    intro todo seen r h x hx
    rw [expandImports] at h
    cases hm : env.members? p with
    | none => rw [hm] at h; cases h
    | some ifaces =>
      rw [hm] at h
      rcases ih _ _ r h x hx with hx2 | ⟨q, hq, l, hl, hxl⟩
      · rcases addIfaces_seen_cases ifaces todo seen x hx2 with hx3 | hx3
        · exact Or.inl hx3
        · exact Or.inr ⟨p, by simp, ifaces, hm, hx3⟩
      · exact Or.inr ⟨q, by simp [hq], l, hl, hxl⟩

theorem expandImports_todo_new (env : Env) : ∀ (ps todo seen : List FQName)
    (r : List FQName × List FQName), expandImports env ps todo seen = some r →
    ∀ x ∈ r.1, x ∈ todo ∨ x ∉ seen := by
  intro ps
  induction ps with
  | nil => intro todo seen r h x hx; cases h; exact Or.inl hx
  | cons p rest ih =>
    intro todo seen r h x hx
    rw [expandImports] at h
    cases hm : env.members? p with
    | none => rw [hm] at h; cases h
    | some ifaces =>
      rw [hm] at h
      rcases ih _ _ r h x hx with hx2 | hx2
      · rcases addIfaces_todo_new ifaces todo seen x hx2 with h3 | h3
        · exact Or.inl h3
        · exact Or.inr h3
      · right
        intro hxs
        exact hx2 (addIfaces_seen_sub ifaces todo seen x hxs)

theorem expandImports_seen_todo (env : Env) : ∀ (ps todo seen : List FQName)
    (r : List FQName × List FQName), expandImports env ps todo seen = some r →
    ∀ x ∈ r.2, x ∈ seen ∨ x ∈ r.1 := by
  intro ps
  induction ps with
  | nil => intro todo seen r h x hx; cases h; exact Or.inl hx
  | cons p rest ih =>
    intro todo seen r h x hx
    rw [expandImports] at h
    cases hm : env.members? p with
    | none => rw [hm] at h; cases h
    | some ifaces =>
      rw [hm] at h
      rcases ih _ _ r h x hx with hx2 | hx2
      · rcases addIfaces_seen_todo ifaces todo seen x hx2 with h3 | h3
        · exact Or.inl h3
        · exact Or.inr (expandImports_todo_sub env rest _ _ r h x h3)
      · exact Or.inr hx2

theorem expandImports_sub_seen (env : Env) : ∀ (ps todo seen : List FQName)
    (r : List FQName × List FQName), expandImports env ps todo seen = some r →
    (∀ x ∈ todo, x ∈ seen) → ∀ x ∈ r.1, x ∈ r.2 := by
  intro ps
  induction ps with
  | nil => intro todo seen r h hsub x hx; cases h; exact hsub x hx
  | cons p rest ih =>
    intro todo seen r h hsub x hx
    rw [expandImports] at h
    cases hm : env.members? p with
    | none => rw [hm] at h; cases h
    | some ifaces =>
      rw [hm] at h
      exact ih _ _ r h (addIfaces_sub_seen ifaces todo seen hsub) x hx

theorem expandImports_nodup (env : Env) : ∀ (ps todo seen : List FQName)
    (r : List FQName × List FQName), expandImports env ps todo seen = some r →
    todo.Nodup → (∀ x ∈ todo, x ∈ seen) → r.1.Nodup := by
  intro ps
  induction ps with
  | nil => intro todo seen r h hnd _; cases h; exact hnd
  | cons p rest ih =>
    intro todo seen r h hnd hsub
    rw [expandImports] at h
    cases hm : env.members? p with
    | none => rw [hm] at h; cases h
    | some ifaces =>
      rw [hm] at h
      exact ih _ _ r h (addIfaces_nodup ifaces todo seen hnd hsub)
        (addIfaces_sub_seen ifaces todo seen hsub)

theorem expandImports_covers (env : Env) : ∀ (ps todo seen : List FQName)
    (r : List FQName × List FQName), expandImports env ps todo seen = some r →
    ∀ p ∈ ps, ∃ l, env.members? p = some l ∧ ∀ v ∈ l, v ∈ r.2 := by
  intro ps
  induction ps with
  | nil => intro todo seen r _ p hp; cases hp
  | cons q rest ih =>
    intro todo seen r h p hp
    rw [expandImports] at h
    cases hm : env.members? q with
    | none => rw [hm] at h; cases h
    | some ifaces =>
      rw [hm] at h
      rcases List.mem_cons.mp hp with hp | hp
      · subst hp
        refine ⟨ifaces, hm, ?_⟩
        intro v hv
        exact expandImports_seen_sub env rest _ _ r h v
          (addIfaces_mem_l_seen ifaces todo seen v hv)
      · exact ih _ _ r h p hp

theorem expandImports_measure (env : Env) : ∀ (ps todo seen : List FQName)
    (r : List FQName × List FQName), expandImports env ps todo seen = some r →
    r.1.length + unseenCount env r.2 ≤ todo.length + unseenCount env seen := by
  intro ps
  induction ps with
  | nil => intro todo seen r h; cases h; exact Nat.le_refl _
  | cons p rest ih =>
    intro todo seen r h
    rw [expandImports] at h
    cases hm : env.members? p with
    | none => rw [hm] at h; cases h
    | some ifaces =>
      rw [hm] at h
      calc r.1.length + unseenCount env r.2
          ≤ (addIfaces ifaces todo seen).1.length
              + unseenCount env (addIfaces ifaces todo seen).2 := ih _ _ r h
        _ ≤ todo.length + unseenCount env seen :=
            addIfaces_measure env ifaces todo seen (members_sub_universe env p ifaces hm)

/- ===================================================================
   Helper lemmas: the worklist loop of isPackageJavaCompatible
   =================================================================== -/

theorem runCompat_ne_none (env : Env) : ∀ (fuel : Nat) (todo seen processed : List FQName),
    todo.length + unseenCount env seen < fuel →
    runCompat env fuel todo seen processed ≠ none := by
  intro fuel
  induction fuel with
  | zero => intro todo seen processed h; exact absurd h (Nat.not_lt_zero _)
  | succ fuel ih =>
    intro todo seen processed h
    cases todo with
    | nil => rw [runCompat]; simp
    | cons fq rest =>
      rw [runCompat]
      cases hp : env.parse fq with
      | none => simp [hp]
      | some ast =>
        simp only [hp]
        by_cases hc : ast.isJavaCompatible = false
        · simp [hc]
        · simp only [hc, if_false]
          cases he : expandImports env ast.importedPackages rest seen with
          | none => simp [he]
          | some r2 =>
            rcases r2 with ⟨todo2, seen2⟩
            simp only [he]
            have hm := expandImports_measure env ast.importedPackages rest seen (todo2, seen2) he
            apply ih
            simp only [List.length_cons] at h
            simp only [] at hm
            omega

theorem foldl_insert_mem : ∀ (l acc : List FQName) (x : FQName),
    (x ∈ l.foldl (fun s i => if i ∈ s then s else i :: s) acc ↔ x ∈ acc ∨ x ∈ l) := by
  intro l
  induction l with
  | nil => intro acc x; simp
  | cons i rest ih =>
    intro acc x
    rw [List.foldl_cons, ih]
    by_cases hi : i ∈ acc
    · rw [if_pos hi]
      constructor
      · rintro (h | h)
        · exact Or.inl h
        · exact Or.inr (List.mem_cons_of_mem i h)
      · rintro (h | h)
        · exact Or.inl h
        · rcases List.mem_cons.mp h with h | h
          · subst h
            exact Or.inl hi
          · exact Or.inr h
    · rw [if_neg hi]
      constructor
      · rintro (h | h)
        · rcases List.mem_cons.mp h with h | h
          · subst h
            exact Or.inr (by simp)
          · exact Or.inl h
        · exact Or.inr (List.mem_cons_of_mem i h)
      · rintro (h | h)
        · exact Or.inl (List.mem_cons_of_mem i h)
        · rcases List.mem_cons.mp h with h | h
          · subst h
            exact Or.inl (by simp)
          · exact Or.inr h

theorem insertSeen_mem (l : List FQName) (x : FQName) : x ∈ insertSeen l ↔ x ∈ l := by
  rw [insertSeen, foldl_insert_mem]
  simp

theorem runCompat_nodup (env : Env) : ∀ (fuel : Nat) (todo seen proc : List FQName)
    (r : RunResult) (sF pF : List FQName),
    todo.Nodup → proc.Nodup → (∀ x ∈ todo, x ∈ seen) → (∀ x ∈ proc, x ∈ seen) →
    (∀ x ∈ proc, x ∉ todo) →
    runCompat env fuel todo seen proc = some (r, sF, pF) → pF.Nodup := by
  intro fuel
  induction fuel with
  | zero =>
    intro todo seen proc r sF pF _ _ _ _ _ h
    rw [runCompat] at h
    cases h
  | succ fuel ih =>
    intro todo seen proc r sF pF hndT hndP hTS hPS hPT h
    cases todo with
    | nil =>
      rw [runCompat] at h
      cases h
      exact hndP
    | cons fq rest =>
      rw [runCompat] at h
      have hfq_seen : fq ∈ seen := hTS fq (by simp)
      have hproc2 : (proc ++ [fq]).Nodup := by
        rw [List.nodup_append]
        refine ⟨hndP, by simp, ?_⟩
        intro y hy
        simp only [List.mem_singleton]
        intro hyfq
        subst hyfq
        exact hPT y hy (by simp)
      cases hp : env.parse fq with
      | none =>
        simp only [hp] at h
        cases h
        exact hproc2
      | some ast =>
        simp only [hp] at h
        by_cases hc : ast.isJavaCompatible = false
        · rw [if_pos hc] at h
          cases h
          exact hproc2
        · rw [if_neg hc] at h
          cases he : expandImports env ast.importedPackages rest seen with
          | none =>
            simp only [he] at h
            cases h
            exact hproc2
          | some r2 =>
            rcases r2 with ⟨todo2, seen2⟩
            simp only [he] at h
            have hrest_nd : rest.Nodup := (List.nodup_cons.mp hndT).2
            have hrest_sub : ∀ x ∈ rest, x ∈ seen := fun x hx => hTS x (by simp [hx])
            refine ih todo2 seen2 (proc ++ [fq]) r sF pF
              (expandImports_nodup env _ rest seen (todo2, seen2) he hrest_nd hrest_sub)
              hproc2
              (expandImports_sub_seen env _ rest seen (todo2, seen2) he hrest_sub)
              ?_ ?_ h
            · intro x hx
              rcases List.mem_append.mp hx with hx | hx
              · exact expandImports_seen_sub env _ rest seen (todo2, seen2) he x (hPS x hx)
              · have hxfq : x = fq := by simpa using hx
                subst hxfq
                exact expandImports_seen_sub env _ rest seen (todo2, seen2) he x hfq_seen
            · intro x hx hxt
              rcases expandImports_todo_new env _ rest seen (todo2, seen2) he x hxt with h3 | h3
              · rcases List.mem_append.mp hx with hx | hx
                · exact hPT x hx (by simp [h3])
                · have hxfq : x = fq := by simpa using hx
                  subst hxfq
                  exact (List.nodup_cons.mp hndT).1 h3
              · rcases List.mem_append.mp hx with hx | hx
                · exact h3 (hPS x hx)
                · have hxfq : x = fq := by simpa using hx
                  subst hxfq
                  exact h3 hfq_seen

/- ===================================================================
   Claim C2 : the worklist traversal terminates; units processed once
   =================================================================== -/

/-- C2: for every finite package graph — diamond imports and
package-level cycles included — the worklist traversal of
`isPackageJavaCompatible` terminates: the chosen fuel (which strictly
dominates the measure `|todo| + |universe not yet visited|`, decreasing
by at least one per iteration thanks to the visited set) is never
exhausted.  Moreover, when the package's member enumeration has no
duplicates, the list of units popped and examined has no duplicates:
each unit is processed at most once. -/
theorem isPackageJavaCompatible_terminates (env : Env) (pkg : FQName) :
    isPackageJavaCompatibleT env pkg ≠ none ∧
    (∀ ms r sF pF, env.members? pkg = some ms → ms.Nodup →
      isPackageJavaCompatibleT env pkg = some (r, sF, pF) → pF.Nodup) := by
  constructor
  · cases hms : env.members? pkg with
    | none =>
      have hrw : isPackageJavaCompatibleT env pkg = some (.err, [], []) := by
        rw [isPackageJavaCompatibleT, hms]
      rw [hrw]
      simp
    | some ms =>
      have hrw : isPackageJavaCompatibleT env pkg
          = runCompat env (compatFuel env ms (insertSeen ms)) ms (insertSeen ms) [] := by
        rw [isPackageJavaCompatibleT, hms]
      rw [hrw]
      apply runCompat_ne_none
      rw [compatFuel]
      omega
  · intro ms r sF pF hms hnd h
    have hrw : isPackageJavaCompatibleT env pkg
        = runCompat env (compatFuel env ms (insertSeen ms)) ms (insertSeen ms) [] := by
      rw [isPackageJavaCompatibleT, hms]
    rw [hrw] at h
    exact runCompat_nodup env _ ms (insertSeen ms) [] r sF pF hnd (by simp)
      (fun x hx => (insertSeen_mem ms x).mpr hx) (by simp) (by simp) h

/-- C2 witness: the synthetic package-level cycle `A→B→C→A` through the
distinct interfaces `IA`, `IB`, `IC`.  The traversal terminates, every
unit is processed exactly once (`[IA, IB, IC]`, no duplicates), and the
computed visited closure is exactly `{IA, IB, IC}` — the units of the
three packages `A`, `B`, `C`. -/
theorem isPackageJavaCompatible_terminates_witness :
    isPackageJavaCompatibleT
        ⟨[(⟨"a", "1.0", ""⟩, [⟨"a", "1.0", "IA"⟩]),
          (⟨"b", "1.0", ""⟩, [⟨"b", "1.0", "IB"⟩]),
          (⟨"c", "1.0", ""⟩, [⟨"c", "1.0", "IC"⟩])],
         [(⟨"a", "1.0", "IA"⟩, ⟨true, [⟨"b", "1.0", ""⟩], [], 0⟩),
          (⟨"b", "1.0", "IB"⟩, ⟨true, [⟨"c", "1.0", ""⟩], [], 0⟩),
          (⟨"c", "1.0", "IC"⟩, ⟨true, [⟨"a", "1.0", ""⟩], [], 0⟩)],
         fun _ _ => 0, fun _ => true⟩
        ⟨"a", "1.0", ""⟩ ≠ none ∧
    List.Nodup [(⟨"a", "1.0", "IA"⟩ : FQName), ⟨"b", "1.0", "IB"⟩, ⟨"c", "1.0", "IC"⟩] :=
  ⟨(isPackageJavaCompatible_terminates
      ⟨[(⟨"a", "1.0", ""⟩, [⟨"a", "1.0", "IA"⟩]),
        (⟨"b", "1.0", ""⟩, [⟨"b", "1.0", "IB"⟩]),
        (⟨"c", "1.0", ""⟩, [⟨"c", "1.0", "IC"⟩])],
       [(⟨"a", "1.0", "IA"⟩, ⟨true, [⟨"b", "1.0", ""⟩], [], 0⟩),
        (⟨"b", "1.0", "IB"⟩, ⟨true, [⟨"c", "1.0", ""⟩], [], 0⟩),
        (⟨"c", "1.0", "IC"⟩, ⟨true, [⟨"a", "1.0", ""⟩], [], 0⟩)],
       fun _ _ => 0, fun _ => true⟩
      ⟨"a", "1.0", ""⟩).1,
   (isPackageJavaCompatible_terminates
      ⟨[(⟨"a", "1.0", ""⟩, [⟨"a", "1.0", "IA"⟩]),
        (⟨"b", "1.0", ""⟩, [⟨"b", "1.0", "IB"⟩]),
        (⟨"c", "1.0", ""⟩, [⟨"c", "1.0", "IC"⟩])],
       [(⟨"a", "1.0", "IA"⟩, ⟨true, [⟨"b", "1.0", ""⟩], [], 0⟩),
        (⟨"b", "1.0", "IB"⟩, ⟨true, [⟨"c", "1.0", ""⟩], [], 0⟩),
        (⟨"c", "1.0", "IC"⟩, ⟨true, [⟨"a", "1.0", ""⟩], [], 0⟩)],
       fun _ _ => 0, fun _ => true⟩
      ⟨"a", "1.0", ""⟩).2
      [⟨"a", "1.0", "IA"⟩] (.ok true)
      [⟨"c", "1.0", "IC"⟩, ⟨"b", "1.0", "IB"⟩, ⟨"a", "1.0", "IA"⟩]
      [⟨"a", "1.0", "IA"⟩, ⟨"b", "1.0", "IB"⟩, ⟨"c", "1.0", "IC"⟩]
      (by decide) (by decide) (by decide)⟩

/- ===================================================================
   Claim C1 : isPackageJavaCompatible computes closure compatibility
   =================================================================== -/

theorem expanded_mono (env : Env) (seen seen2 : List FQName) (x : FQName)
    (h : Expanded env seen x) (hsub : ∀ y ∈ seen, y ∈ seen2) : Expanded env seen2 x := by
  rcases h with ⟨ast, hp, hc, himp⟩
  refine ⟨ast, hp, hc, ?_⟩
  intro p hpp
  rcases himp p hpp with ⟨l, hl, hlsub⟩
  exact ⟨l, hl, fun v hv => hsub v (hlsub v hv)⟩

/-- The worklist invariant argument: provided every worklist entry is
visited, every visited unit is reachable, every seed is visited, and
every visited unit no longer on the worklist is fully expanded, the loop
returns `true` exactly when every reachable unit is individually
compatible. -/
theorem runCompat_spec (env : Env) (roots : List FQName) : ∀ (fuel : Nat)
    (todo seen processed : List FQName) (b : Bool) (sF pF : List FQName),
    (∀ x ∈ todo, x ∈ seen) →
    (∀ x ∈ seen, Reaches env roots x) →
    (∀ x ∈ roots, x ∈ seen) →
    (∀ x ∈ seen, x ∉ todo → Expanded env seen x) →
    runCompat env fuel todo seen processed = some (.ok b, sF, pF) →
    (b = true ↔ ∀ u, Reaches env roots u → unitCompatible env u) := by
  intro fuel
  induction fuel with
  | zero =>
    intro todo seen processed b sF pF _ _ _ _ h
    rw [runCompat] at h
    cases h
  | succ fuel ih =>
    intro todo seen processed b sF pF hTS hReach hRoots hExp h
    cases todo with
    | nil =>
      rw [runCompat] at h
      cases h
      have hclosed : ∀ u, Reaches env roots u → u ∈ seen := by
        intro u hu
        induction hu with
        | root hmem => exact hRoots _ hmem
        | step hru hparse hpimp hmems hvm ihu =>
          rcases hExp _ ihu (by simp) with ⟨ast2, hp2, hc2, himp⟩
          rw [hp2] at hparse
          injection hparse with hasteq
          subst hasteq
          rcases himp _ hpimp with ⟨l, hl, hlsub⟩
          rw [hl] at hmems
          injection hmems with hleq
          subst hleq
          exact hlsub _ hvm
      refine iff_of_true rfl ?_
      intro u hu
      rcases hExp u (hclosed u hu) (by simp) with ⟨ast, hp, hc, -⟩
      exact ⟨ast, hp, hc⟩
    | cons fq rest =>
      rw [runCompat] at h
      cases hp : env.parse fq with
      | none =>
        simp only [hp] at h
        cases h
      | some ast =>
        simp only [hp] at h
        by_cases hc : ast.isJavaCompatible = false
        · rw [if_pos hc] at h
          cases h
          refine iff_of_false (by simp) ?_
          intro hall
          have hr : Reaches env roots fq := hReach fq (hTS fq (by simp))
          rcases hall fq hr with ⟨ast2, hp2, hc2⟩
          rw [hp] at hp2
          injection hp2 with hasteq
          subst hasteq
          rw [hc2] at hc
          cases hc
        · rw [if_neg hc] at h
          cases he : expandImports env ast.importedPackages rest seen with
          | none =>
            simp only [he] at h
            cases h
          | some r2 =>
            rcases r2 with ⟨todo2, seen2⟩
            simp only [he] at h
            have hcomp : ast.isJavaCompatible = true := by
              revert hc
              cases ast.isJavaCompatible <;> simp
            have hfq_seen : fq ∈ seen := hTS fq (by simp)
            have hseen_sub : ∀ y ∈ seen, y ∈ seen2 :=
              fun y hy => expandImports_seen_sub env _ rest seen (todo2, seen2) he y hy
            refine ih todo2 seen2 (processed ++ [fq]) b sF pF ?_ ?_ ?_ ?_ h
            · exact expandImports_sub_seen env _ rest seen (todo2, seen2) he
                (fun x hx => hTS x (by simp [hx]))
            · intro x hx
              rcases expandImports_seen_cases env _ rest seen (todo2, seen2) he x hx with
                h2 | ⟨p, hpp, l, hl, hxl⟩
              · exact hReach x h2
              · exact Reaches.step (hReach fq hfq_seen) hp hpp hl hxl
            · exact fun x hx => hseen_sub x (hRoots x hx)
            · intro x hx hnt
              rcases expandImports_seen_todo env _ rest seen (todo2, seen2) he x hx with hxs | hxt
              · by_cases hxfq : x = fq
                · subst hxfq
                  refine ⟨ast, hp, hcomp, ?_⟩
                  intro p hpp
                  exact expandImports_covers env _ rest seen (todo2, seen2) he p hpp
                · have hxrest : x ∉ rest := fun hxr =>
                    hnt (expandImports_todo_sub env _ rest seen (todo2, seen2) he x hxr)
                  have hxtodo : x ∉ fq :: rest := by
                    intro hxt2
                    rcases List.mem_cons.mp hxt2 with h4 | h4
                    · exact hxfq h4
                    · exact hxrest h4
                  exact expanded_mono env seen seen2 x (hExp x hxs hxtodo) hseen_sub
              · exact absurd hxt hnt

/-- C1: whenever `isPackageJavaCompatible` reports a result (status
`OK`), the reported flag is `true` if and only if every unit reachable
from the package's own members through transitively imported packages
(every member of every package imported by an already reachable unit, to
any depth) is individually Java-compatible — equivalently, it reports
incompatible exactly when some reachable unit is incompatible. -/
theorem isPackageJavaCompatible_closure (env : Env) (pkg : FQName) (ms : List FQName) (b : Bool)
    (hms : env.members? pkg = some ms)
    (h : isPackageJavaCompatible env pkg = some (.ok b)) :
    (b = true ↔ ∀ u, Reaches env ms u → unitCompatible env u) := by
  rw [isPackageJavaCompatible] at h
  cases hT : isPackageJavaCompatibleT env pkg with
  | none =>
    rw [hT] at h
    cases h
  | some trip =>
    rcases trip with ⟨r, sF, pF⟩
    rw [hT] at h
    simp only [Option.map_some', Option.some.injEq] at h
    subst h
    have hrw : isPackageJavaCompatibleT env pkg
        = runCompat env (compatFuel env ms (insertSeen ms)) ms (insertSeen ms) [] := by
      rw [isPackageJavaCompatibleT, hms]
    rw [hrw] at hT
    refine runCompat_spec env ms _ ms (insertSeen ms) [] b sF pF ?_ ?_ ?_ ?_ hT
    · exact fun x hx => (insertSeen_mem ms x).mpr hx
    · exact fun x hx => Reaches.root ((insertSeen_mem ms x).mp hx)
    · exact fun x hx => (insertSeen_mem ms x).mpr hx
    · intro x hx hnt
      exact absurd ((insertSeen_mem ms x).mp hx) hnt

/-- C1 witness: a one-package environment whose single `types` unit is
compatible and imports nothing; every reachable unit is then compatible,
matching the reported `true`. -/
theorem isPackageJavaCompatible_closure_witness :
    (true = true ↔ ∀ u,
      Reaches ⟨[(⟨"p", "1.0", ""⟩, [⟨"p", "1.0", "types"⟩])],
               [(⟨"p", "1.0", "types"⟩, ⟨true, [], [], 0⟩)],
               fun _ _ => 0, fun _ => true⟩
          [⟨"p", "1.0", "types"⟩] u →
      unitCompatible ⟨[(⟨"p", "1.0", ""⟩, [⟨"p", "1.0", "types"⟩])],
               [(⟨"p", "1.0", "types"⟩, ⟨true, [], [], 0⟩)],
               fun _ _ => 0, fun _ => true⟩ u) :=
  isPackageJavaCompatible_closure
    ⟨[(⟨"p", "1.0", ""⟩, [⟨"p", "1.0", "types"⟩])],
     [(⟨"p", "1.0", "types"⟩, ⟨true, [], [], 0⟩)],
     fun _ _ => 0, fun _ => true⟩
    ⟨"p", "1.0", ""⟩ [⟨"p", "1.0", "types"⟩] true (by decide) (by decide)

end Hidl
